import Mathlib

/-!
Verification of the key-reconciliation and translation-file consistency engine
of the lokalise-sync CLI (src/lokalise.ts), via a shallow embedding.

JSON objects (flat string-to-string maps) are modelled as association lists in
JavaScript property order: integer-indexed keys (canonical decimal strings of
integers below 2^32 - 1) first in ascending numeric order, then string keys in
insertion order.  `objSet` is the JS property assignment, `objGet` is indexing.
-/

set_option autoImplicit false

namespace Lokalise

/-! ## JS string helpers: whitespace, tab runs, value cleanup (lines 60-93) -/

/-- Characters matched by the JavaScript regex class `\s`. -/
def isJsWs (c : Char) : Bool :=
  [9, 10, 11, 12, 13, 32, 0xa0, 0x1680, 0x2000, 0x2001, 0x2002, 0x2003, 0x2004,
    0x2005, 0x2006, 0x2007, 0x2008, 0x2009, 0x200a, 0x2028, 0x2029, 0x202f,
    0x205f, 0x3000, 0xfeff].contains c.toNat

/-- Core of `value.replace(TAB_REGEX, " ")` with `TAB_REGEX = /\t+/g`:
each maximal run of tabs becomes a single space.  The Boolean records
whether we are currently inside a tab run. -/
def replaceTabRunsAux : Bool → List Char → List Char
  | _, [] => []
  | prev, c :: rest =>
    if c = '\t' then
      if prev then replaceTabRunsAux true rest
      else ' ' :: replaceTabRunsAux true rest
    else c :: replaceTabRunsAux false rest

/-- Models `value.replace(/\t+/g, " ")`. -/
def replaceTabRuns (s : String) : String := ⟨replaceTabRunsAux false s.data⟩

/-- Models `value.replace(/^\s+/g, "")` (strip the leading whitespace run). -/
def stripLeadingWs (s : String) : String := ⟨s.data.dropWhile isJsWs⟩

/-- Models `value.replace(/\s+$/g, "")` (strip the trailing whitespace run). -/
def stripTrailingWs (s : String) : String :=
  ⟨(s.data.reverse.dropWhile isJsWs).reverse⟩

/-- Models `value.includes("\t")`. -/
def containsTab (s : String) : Bool := s.data.contains '\t'

/-- Models `value.startsWith(" ")`. -/
def headIsSpace (s : String) : Bool :=
  match s.data with
  | [] => false
  | c :: _ => c == ' '

/-- Models `value.endsWith(" ")`. -/
def lastIsSpace (s : String) : Bool :=
  match s.data.getLast? with
  | none => false
  | some c => c == ' '

/-- Lines 80-82: `if (value.includes("\t")) value = value.replace(TAB_REGEX, " ")`. -/
def cleanStep1 (value : String) : String :=
  if containsTab value then replaceTabRuns value else value

/-- Lines 84-86: `if (value.startsWith(" ")) value = value.replace(LEADING_SPACE_REGEX, "")`. -/
def cleanStep2 (s : String) : String :=
  if headIsSpace s then stripLeadingWs s else s

/-- Lines 88-90: `if (value.endsWith(" ")) value = value.replace(TRAILING_SPACE_REGEX, "")`. -/
def cleanStep3 (s : String) : String :=
  if lastIsSpace s then stripTrailingWs s else s

/-- The per-value cleanup performed by `cleanupJson` (lines 78-90): replace tab
runs by one space when the value contains a tab, strip leading whitespace when
the value then starts with a space, strip trailing whitespace when the value
then ends with a space. -/
def cleanValue (value : String) : String :=
  cleanStep3 (cleanStep2 (cleanStep1 value))

/-- Modelled from the spec: "replace every run of one-or-more tab characters
with a single space; strip all leading whitespace; strip all trailing
whitespace" — unconditional stripping, for comparison with `cleanValue`. -/
def specCleanValue (value : String) : String :=
  stripTrailingWs (stripLeadingWs (replaceTabRuns value))

/-! ## JS objects as association lists in property order -/

/-- A flat JSON object (string keys, string values) in JS property order. -/
abbrev Obj := List (String × String)

/-- First-match lookup in an association list: models JS `o[k]`. -/
def alistGet {β : Type} : List (String × β) → String → Option β
  | [], _ => none
  | p :: rest, k => if p.1 = k then some p.2 else alistGet rest k

/-- The keys of an object, in stored (property) order: models `Object.keys`. -/
def objKeys (o : Obj) : List String := o.map Prod.fst

/-- Models `o[k]`. -/
def objGet (o : Obj) (k : String) : Option String := alistGet o k

/-- `o[k]` where the key is known to be present (`json[key] as string`). -/
def objGetD (o : Obj) (k : String) : String := (objGet o k).getD ""

/-- Numeric value of a decimal digit string. -/
def charsToNat (l : List Char) : Nat :=
  l.foldl (fun n c => n * 10 + (c.toNat - 48)) 0

/-- Whether a character list is the canonical decimal form of a natural
number: nonempty, all digits, and no leading zero except for "0" itself. -/
def isCanonicalNat : List Char → Bool
  | [] => false
  | [c] => c.isDigit
  | c :: rest => c.isDigit && !(c == '0') && rest.all Char.isDigit

/-- Whether a string is a JS array index: the canonical decimal form of an
integer below 2^32 - 1.  Such property keys are enumerated first, in ascending
numeric order, by JS objects. -/
def isArrayIndexKey (s : String) : Bool :=
  isCanonicalNat s.data && Nat.blt (charsToNat s.data) 4294967295

/-- Numeric value of an array-index key. -/
def keyNum (s : String) : Nat := charsToNat s.data

/-- Insert a fresh array-index key at its numeric position among the leading
array-index keys of the object. -/
def insertNumKey (k v : String) : Obj → Obj
  | [] => [(k, v)]
  | p :: rest =>
    if isArrayIndexKey p.1 && Nat.blt (keyNum p.1) (keyNum k) then
      p :: insertNumKey k v rest
    else (k, v) :: p :: rest

/-- JS property assignment `o[k] = v` (also the effect of
`{ ...o, [k]: v }`): update in place when the key exists, otherwise insert
per JS property order (array-index keys first, numerically ascending;
other keys appended). -/
def objSet (o : Obj) (k v : String) : Obj :=
  if (objKeys o).contains k then
    o.map (fun p => if p.1 = k then (k, v) else p)
  else if isArrayIndexKey k then insertNumKey k v o
  else o ++ [(k, v)]

/-- Delete key `k` from the object: models `delete o[k]`. -/
def objDelete (o : Obj) (k : String) : Obj := o.filter (fun p => !(p.1 == k))

/-- Lexicographic comparison of character lists (the default JS string
comparison, code unit by code unit). -/
def charsLe : List Char → List Char → Bool
  | [], _ => true
  | _ :: _, [] => false
  | a :: as, b :: bs =>
    if a < b then true
    else if b < a then false
    else charsLe as bs

/-- JS `a <= b` on strings: lexicographic ascending. -/
def strLeB (a b : String) : Bool := charsLe a.data b.data

/-- The ordering relation used by the default JS `Array.prototype.sort`. -/
def strLe (a b : String) : Prop := strLeB a b = true

instance strLe.decidableRel : DecidableRel strLe := fun a b => by
  unfold strLe; infer_instance

/-- `keys.sort()`: default JS sort, lexicographic ascending. -/
def sortStr (l : List String) : List String :=
  List.insertionSort strLe l

/-- `cleanupJson` (lines 65-93): sort the keys, drop keys outside
`allowedKeys`, clean each kept value, rebuild the object. -/
def cleanupJson (json : Obj) (allowedKeys : List String) : Obj :=
  let keys := sortStr (objKeys json)
  keys.foldl
    (fun acc key =>
      if allowedKeys.contains key then
        objSet acc key (cleanValue (objGetD json key))
      else acc)
    []

/-- The sorted list of keys of `json` kept by `cleanupJson`: sorted keys
restricted to `allowedKeys`. -/
def keptKeys (json : Obj) (allowedKeys : List String) : List String :=
  (sortStr (objKeys json)).filter (fun k => allowedKeys.contains k)

/-! ## Usage scanner (`findUnusedInProject`, lines 341-401) -/

/-- JS `s.split(".")`: cut at every dot; the accumulator holds the current
segment reversed. -/
def splitDotAux : List Char → List Char → List (List Char)
  | cur, [] => [cur.reverse]
  | cur, c :: rest =>
    if c = '.' then cur.reverse :: splitDotAux [] rest
    else splitDotAux (c :: cur) rest

/-- Models `key.split(".")`. -/
def splitDot (s : String) : List String :=
  (splitDotAux [] s.data).map (fun l => ⟨l⟩)

/-- Boolean test that `a` is a prefix of `b`. -/
def isPrefixB : List Char → List Char → Bool
  | [], _ => true
  | _ :: _, [] => false
  | a :: as, b :: bs => a == b && isPrefixB as bs

/-- Boolean test that `needle` occurs contiguously inside the second list. -/
def isInfixB (needle : List Char) : List Char → Bool
  | [] => needle.isEmpty
  | c :: rest => isPrefixB needle (c :: rest) || isInfixB needle rest

/-- Models `code.includes(needle)`: substring containment. -/
def strIncludes (code needle : String) : Bool :=
  isInfixB needle.data code.data

/-- Line 366: `key.split(".").slice(0, -1).join(".") + ".${"` — the variant
used "when the last part is variable". -/
def variantKey1 (key : String) : String :=
  String.intercalate "." (splitDot key).dropLast ++ ".$\x7b"

/-- Line 368: `key.split(".").slice(0, -2).join(".") + ".${"` — the variant
used "when the 2 last parts are variable". -/
def variantKey2 (key : String) : String :=
  String.intercalate "." (splitDot key).dropLast.dropLast ++ ".$\x7b"

/-- The filter body of lines 364-377: a reference key is unused when none of
the five textual patterns occurs in the concatenated source code. -/
def isUnusedKey (code key : String) : Bool :=
  !(strIncludes code ("\"" ++ key ++ "\"")) &&
  !(strIncludes code ("\x60" ++ key ++ "\x60")) &&
  !(strIncludes code ("\x27" ++ key ++ "\x27")) &&
  !(strIncludes code ("\x60" ++ variantKey1 key)) &&
  !(strIncludes code ("\x60" ++ variantKey2 key))

/-- `unusedKeys` as computed by `findUnusedInProject`. -/
def scanUnusedKeys (code : String) (referenceKeys : List String) : List String :=
  referenceKeys.filter (fun key => isUnusedKey code key)

/-- `keptKeys` as computed by `findUnusedInProject`:
`refrenceKeys.filter((item) => !unusedKeys.includes(item))`. -/
def scanKeptKeys (code : String) (referenceKeys : List String) : List String :=
  referenceKeys.filter
    (fun item => !((scanUnusedKeys code referenceKeys).contains item))

/-- Modelled from the spec: key `k` is used when the source "contains `k`
wrapped in double quotes, backticks, or single quotes", or contains a backtick
followed by the suffix variant with the last (resp. last two) dot-delimited
segments replaced by an interpolation opener.  Stated with the mathematical
substring relation, for comparison with the Boolean scanner. -/
def specKeyUsed (code key : String) : Prop :=
  List.IsInfix ("\"" ++ key ++ "\"").data code.data ∨
  List.IsInfix ("\x60" ++ key ++ "\x60").data code.data ∨
  List.IsInfix ("\x27" ++ key ++ "\x27").data code.data ∨
  List.IsInfix ("\x60" ++ variantKey1 key).data code.data ∨
  List.IsInfix ("\x60" ++ variantKey2 key).data code.data

/-! ## Locale file serialization and the three write sites -/

/-- Lowercase hexadecimal digit. -/
def hexDigitChar (n : Nat) : Char :=
  if n < 10 then Char.ofNat (48 + n) else Char.ofNat (87 + n)

/-- `JSON.stringify` escaping for one character of a string. -/
def escapeJsonChar (c : Char) : String :=
  if c = '"' then "\\\""
  else if c = '\\' then "\\\\"
  else if c.toNat = 8 then "\\b"
  else if c.toNat = 9 then "\\t"
  else if c.toNat = 10 then "\\n"
  else if c.toNat = 12 then "\\f"
  else if c.toNat = 13 then "\\r"
  else if c.toNat < 32 then
    "\\u00" ++ ⟨[hexDigitChar (c.toNat / 16), hexDigitChar (c.toNat % 16)]⟩
  else ⟨[c]⟩

/-- A JSON string literal for `s`. -/
def quoteJsonString (s : String) : String :=
  "\"" ++ String.join (s.data.map escapeJsonChar) ++ "\""

/-- `JSON.stringify(o, null, 2)` for a flat string-to-string object, keys in
property order. -/
def jsonStringify2 (o : Obj) : String :=
  match o with
  | [] => "\x7b\x7d"
  | _ =>
    "\x7b\n" ++
      String.intercalate ",\n"
        (o.map (fun p => "  " ++ quoteJsonString p.1 ++ ": " ++ quoteJsonString p.2)) ++
      "\n\x7d"

/-- `JSON.stringify(o, null, 2) + os.EOL`: the exact bytes every write site
produces. -/
def serializeLocale (o : Obj) : String := jsonStringify2 o ++ "\n"

/-- The write step of `cleanupProject` (lines 326-338): the write is skipped
(`none`) when the serialized cleaned object equals the raw file content. -/
def cleanupLocaleWrite (rawFile : String) (json : Obj) (allowedKeys : List String) :
    Option String :=
  let nextRawFile := serializeLocale (cleanupJson json allowedKeys)
  if rawFile = nextRawFile then none else some nextRawFile

/-- The write step of `pullProject` (lines 194-206): unconditional, the
existing file content is never consulted. -/
def pullLocaleWrite (json : Obj) : Option String :=
  some (serializeLocale json)

/-- `onlyKeepKeysInJson` (lines 403-427): keep only `keysToKeep`, then write
unconditionally. -/
def onlyKeepKeysInJson (json : Obj) (keysToKeep : List String) : Option String :=
  let jsonWithoutKeys :=
    (objKeys json).foldl
      (fun acc key =>
        if keysToKeep.contains key then objSet acc key (objGetD json key) else acc)
      []
  some (serializeLocale jsonWithoutKeys)

/-! ## Reconciler (`pullProject`, lines 158-191) -/

/-- Line 173: `locallyAddedKeys`, the local reference keys not yet known
remotely (`L - R`). -/
def locallyAddedKeys (localRef d : Obj) : List String :=
  (objKeys localRef).filter (fun k => !((objKeys d).contains k))

/-- Line 176: `locallyRemovedKeys`, the remote default-locale keys retired
from the local reference (`R - L`). -/
def locallyRemovedKeys (localRef d : Obj) : List String :=
  (objKeys d).filter (fun k => !((objKeys localRef).contains k))

/-- The effect of lines 180-191 on one locale entry of the bundle: the default
locale first receives every locally added key with its local value, then every
locale loses the locally removed keys. -/
def reconcileEntry (localRef d : Obj) (dl : String) (p : String × Obj) :
    String × Obj :=
  let m1 :=
    if p.1 = dl then
      (locallyAddedKeys localRef d).foldl
        (fun acc k => objSet acc k (objGetD localRef k)) p.2
    else p.2
  (p.1, m1.filter (fun q => !((locallyRemovedKeys localRef d).contains q.1)))

/-- The pull merge (lines 158-191): `none` models the early return when the
downloaded bundle has no map for the default locale (lines 164-169). -/
def reconcileBundle (bundle : List (String × Obj)) (localRef : Obj)
    (dl : String) : Option (List (String × Obj)) :=
  match alistGet bundle dl with
  | none => none
  | some d => some (bundle.map (reconcileEntry localRef d dl))

/-! ## Command orchestration (pull / push / lint commands, lines 441-508) -/

/-- The data a single project's pull depends on: the downloaded bundle, the
local reference locale, the configured default locale, and the outcome of the
external ICU syntax validator on the project's files. -/
structure PullInput where
  bundle : List (String × Obj)
  localRef : Obj
  dl : String
  lintOk : Bool
  deriving DecidableEq

/-- Outcome of `pullProject` for one project. -/
inductive PullOutcome where
  | missingDefaultLocale : PullOutcome
  | pulled : List (String × Obj) → Bool → PullOutcome
  deriving DecidableEq

/-- `pullProject` (lines 108-217): reconcile, then write every locale of the
reconciled bundle and lint; with a missing default locale it logs and returns
(lines 164-169) before writing anything. -/
def pullProjectModel (inp : PullInput) : PullOutcome :=
  match reconcileBundle inp.bundle inp.localRef inp.dl with
  | none => PullOutcome.missingDefaultLocale
  | some b => PullOutcome.pulled b inp.lintOk

/-- The locale files written by a pull outcome. -/
def pullWrites : PullOutcome → List (String × Obj)
  | PullOutcome.missingDefaultLocale => []
  | PullOutcome.pulled files _ => files

/-- Whether the outcome reaches `process.exit(1)` (line 215: lint failed). -/
def pullExits : PullOutcome → Bool
  | PullOutcome.missingDefaultLocale => false
  | PullOutcome.pulled _ ok => !ok

/-- The `pull` command loop (lines 454-465): projects processed in order;
`process.exit(1)` inside `pullProject` stops the whole run.  Returns the
outcomes of the processed projects and whether the process exited with 1. -/
def runPull : List PullInput → List PullOutcome × Bool
  | [] => ([], false)
  | inp :: rest =>
    let o := pullProjectModel inp
    if pullExits o then ([o], true)
    else
      let r := runPull rest
      (o :: r.1, r.2)

/-- The data a single project's push depends on: the validator outcome and the
locale files it would upload. -/
structure PushInput where
  lintOk : Bool
  files : List String
  deriving DecidableEq

/-- Outcome of `pushProject` for one project. -/
inductive PushOutcome where
  | lintFailed : PushOutcome
  | uploaded : List String → PushOutcome
  deriving DecidableEq

/-- `pushProject` (lines 225-273): cleanup, lint (exit on failure, line 231),
then upload every locale file. -/
def pushProjectModel (inp : PushInput) : PushOutcome :=
  if inp.lintOk then PushOutcome.uploaded inp.files else PushOutcome.lintFailed

/-- Whether the push outcome reaches `process.exit(1)`. -/
def pushExits : PushOutcome → Bool
  | PushOutcome.lintFailed => true
  | PushOutcome.uploaded _ => false

/-- The `push` command loop (lines 467-478) with `process.exit(1)` semantics. -/
def runPush : List PushInput → List PushOutcome × Bool
  | [] => ([], false)
  | inp :: rest =>
    let o := pushProjectModel inp
    if pushExits o then ([o], true)
    else
      let r := runPush rest
      (o :: r.1, r.2)

/-- The `lint` command (lines 493-508): every project is linted and reported,
then the process exits with 1 when any project had errors.  Input: per-project
validator verdicts; output: the reported verdicts and the exit-1 flag. -/
def runLintCommand (oks : List Bool) : List Bool × Bool :=
  (oks, !(oks.all (fun b => b)))

/-! ## Helper lemmas: Boolean membership -/

theorem list_contains_iff {α : Type} [BEq α] [LawfulBEq α] {l : List α} {a : α} :
    l.contains a = true ↔ a ∈ l := List.elem_iff

theorem list_contains_eq_false_iff {α : Type} [BEq α] [LawfulBEq α] {l : List α}
    {a : α} : l.contains a = false ↔ a ∉ l := by
  rw [← Bool.not_eq_true]
  exact not_congr list_contains_iff

/-! ## Helper lemmas: value cleanup -/

theorem not_tab_mem_replaceTabRunsAux :
    ∀ (l : List Char) (b : Bool), '\t' ∉ replaceTabRunsAux b l := by
  intro l
  induction l with
  | nil => intro b; simp [replaceTabRunsAux]
  | cons c rest ih =>
    intro b
    by_cases hc : c = '\t'
    · subst hc
      cases b with
      | true => simpa [replaceTabRunsAux] using ih true
      | false =>
        simp only [replaceTabRunsAux, if_pos rfl, Bool.false_eq_true, if_false]
        intro h
        rcases List.mem_cons.mp h with h | h
        · exact absurd h (by decide)
        · exact ih true h
    · simp only [replaceTabRunsAux, if_neg hc]
      intro h
      rcases List.mem_cons.mp h with h | h
      · exact hc h.symm
      · exact ih false h

theorem replaceTabRunsAux_of_not_mem :
    ∀ (l : List Char) (b : Bool), '\t' ∉ l → replaceTabRunsAux b l = l := by
  intro l
  induction l with
  | nil => intro b _; rfl
  | cons c rest ih =>
    intro b h
    have hc : ¬(c = '\t') := fun e => h (List.mem_cons.mpr (Or.inl e.symm))
    have hr : '\t' ∉ rest := fun m => h (List.mem_cons_of_mem c m)
    simp [replaceTabRunsAux, hc, ih false hr]

theorem replaceTabRuns_of_not_containsTab {s : String} (h : containsTab s = false) :
    replaceTabRuns s = s := by
  have hm : '\t' ∉ s.data := list_contains_eq_false_iff.mp h
  unfold replaceTabRuns
  rw [replaceTabRunsAux_of_not_mem s.data false hm]

theorem cleanStep1_eq_replaceTabRuns (v : String) :
    cleanStep1 v = replaceTabRuns v := by
  unfold cleanStep1
  cases hb : containsTab v with
  | true => simp
  | false => simp [replaceTabRuns_of_not_containsTab hb]

theorem no_tab_cleanStep1 (v : String) : '\t' ∉ (cleanStep1 v).data := by
  rw [cleanStep1_eq_replaceTabRuns]
  exact not_tab_mem_replaceTabRunsAux v.data false

theorem headIsSpace_eq_false {s : String}
    (h : ∀ c t, s.data = c :: t → (c == ' ') = false) : headIsSpace s = false := by
  simp only [headIsSpace]
  cases hs : s.data with
  | nil => rfl
  | cons c t => exact h c t hs

theorem headIsSpace_stripLeadingWs (s : String) :
    headIsSpace (stripLeadingWs s) = false := by
  apply headIsSpace_eq_false
  intro c t h
  have hdrop : s.data.dropWhile isJsWs = c :: t := h
  have hws : isJsWs c = false := by
    have h0 := List.head?_dropWhile_not isJsWs s.data
    rw [hdrop] at h0
    exact h0
  cases hc : c == ' ' with
  | false => rfl
  | true =>
    have : c = ' ' := beq_iff_eq.mp hc
    rw [this] at hws
    exact absurd hws (by decide)

theorem lastIsSpace_eq_false {s : String}
    (h : ∀ c, s.data.getLast? = some c → (c == ' ') = false) :
    lastIsSpace s = false := by
  simp only [lastIsSpace]
  cases hs : s.data.getLast? with
  | none => rfl
  | some c => exact h c hs

theorem lastIsSpace_stripTrailingWs (s : String) :
    lastIsSpace (stripTrailingWs s) = false := by
  apply lastIsSpace_eq_false
  intro c h
  have hdata : (stripTrailingWs s).data
      = (s.data.reverse.dropWhile isJsWs).reverse := rfl
  rw [hdata, List.getLast?_reverse] at h
  have h0 := List.head?_dropWhile_not isJsWs s.data.reverse
  rw [h] at h0
  cases hc : c == ' ' with
  | false => rfl
  | true =>
    have : c = ' ' := beq_iff_eq.mp hc
    rw [this] at h0
    exact absurd h0 (by decide)

theorem headIsSpace_stripTrailingWs_of {s : String} (h : headIsSpace s = false) :
    headIsSpace (stripTrailingWs s) = false := by
  apply headIsSpace_eq_false
  intro c t hct
  have hct' : (s.data.reverse.dropWhile isJsWs).reverse = c :: t := hct
  have hpre : (s.data.reverse.dropWhile isJsWs).reverse <+: s.data := by
    have h1 : s.data.reverse.dropWhile isJsWs <:+ s.data.reverse :=
      List.dropWhile_suffix isJsWs
    have h2 := h1.reverse
    rwa [List.reverse_reverse] at h2
  rw [hct'] at hpre
  cases hs : s.data with
  | nil =>
    rw [hs] at hpre
    exact absurd (List.prefix_nil.mp hpre) (by simp)
  | cons c0 t0 =>
    rw [hs] at hpre
    obtain ⟨hce, -⟩ := List.cons_prefix_cons.mp hpre
    have h0 : (c0 == ' ') = false := by
      have := h
      simp only [headIsSpace, hs] at this
      exact this
    rw [hce]
    exact h0

theorem cleanStep2_headIsSpace (s : String) : headIsSpace (cleanStep2 s) = false := by
  unfold cleanStep2
  cases hb : headIsSpace s with
  | true => simp [headIsSpace_stripLeadingWs]
  | false => simp [hb]

theorem cleanStep2_subset (s : String) : (cleanStep2 s).data ⊆ s.data := by
  unfold cleanStep2
  cases hb : headIsSpace s with
  | true =>
    simp only [if_true]
    have h1 : List.Sublist (s.data.dropWhile isJsWs) s.data :=
      List.dropWhile_sublist isJsWs
    exact h1.subset
  | false =>
    simp only [Bool.false_eq_true, if_false]
    exact fun x hx => hx

theorem cleanStep3_subset (s : String) : (cleanStep3 s).data ⊆ s.data := by
  unfold cleanStep3
  cases hb : lastIsSpace s with
  | true =>
    simp only [if_true]
    intro x hx
    rw [show (stripTrailingWs s).data = (s.data.reverse.dropWhile isJsWs).reverse
      from rfl, List.mem_reverse] at hx
    have h1 : List.Sublist (s.data.reverse.dropWhile isJsWs) s.data.reverse :=
      List.dropWhile_sublist isJsWs
    have h2 := h1.subset hx
    rwa [List.mem_reverse] at h2
  | false =>
    simp only [Bool.false_eq_true, if_false]
    exact fun x hx => hx

theorem cleanValue_no_tab (v : String) : '\t' ∉ (cleanValue v).data := by
  intro h
  exact no_tab_cleanStep1 v
    (cleanStep2_subset (cleanStep1 v) (cleanStep3_subset (cleanStep2 (cleanStep1 v)) h))

theorem cleanValue_containsTab (v : String) : containsTab (cleanValue v) = false :=
  list_contains_eq_false_iff.mpr (cleanValue_no_tab v)

theorem cleanValue_headIsSpace (v : String) : headIsSpace (cleanValue v) = false := by
  show headIsSpace (cleanStep3 (cleanStep2 (cleanStep1 v))) = false
  unfold cleanStep3
  cases hb : lastIsSpace (cleanStep2 (cleanStep1 v)) with
  | true => simp [headIsSpace_stripTrailingWs_of (cleanStep2_headIsSpace (cleanStep1 v))]
  | false => simp [cleanStep2_headIsSpace]

theorem cleanValue_lastIsSpace (v : String) : lastIsSpace (cleanValue v) = false := by
  show lastIsSpace (cleanStep3 (cleanStep2 (cleanStep1 v))) = false
  unfold cleanStep3
  cases hb : lastIsSpace (cleanStep2 (cleanStep1 v)) with
  | true => simp [lastIsSpace_stripTrailingWs]
  | false => simp [hb]

theorem cleanValue_idem (v : String) : cleanValue (cleanValue v) = cleanValue v := by
  have h1 : cleanStep1 (cleanValue v) = cleanValue v := by
    unfold cleanStep1; simp [cleanValue_containsTab]
  have h2 : cleanStep2 (cleanValue v) = cleanValue v := by
    unfold cleanStep2; simp [cleanValue_headIsSpace]
  have h3 : cleanStep3 (cleanValue v) = cleanValue v := by
    unfold cleanStep3; simp [cleanValue_lastIsSpace]
  show cleanStep3 (cleanStep2 (cleanStep1 (cleanValue v))) = cleanValue v
  rw [h1, h2, h3]

/-! ## Helper lemmas: association lists -/

theorem alistGet_nil {β : Type} (k : String) : alistGet ([] : List (String × β)) k = none := rfl

theorem alistGet_cons {β : Type} (p : String × β) (l : List (String × β)) (k : String) :
    alistGet (p :: l) k = if p.1 = k then some p.2 else alistGet l k := rfl

theorem alistGet_isSome_iff {β : Type} (l : List (String × β)) (k : String) :
    (alistGet l k).isSome = true ↔ k ∈ l.map Prod.fst := by
  induction l with
  | nil => simp [alistGet_nil]
  | cons p rest ih =>
    by_cases h : p.1 = k
    · simp [alistGet_cons, h]
    · have h2 : ¬(k = p.1) := fun e => h e.symm
      simp [alistGet_cons, h, h2, ih]

theorem alistGet_eq_none_iff {β : Type} (l : List (String × β)) (k : String) :
    alistGet l k = none ↔ k ∉ l.map Prod.fst := by
  rw [← alistGet_isSome_iff]
  cases alistGet l k <;> simp

theorem alistGet_eq_some_getD {o : Obj} {k : String} (h : k ∈ objKeys o) :
    objGet o k = some (objGetD o k) := by
  have hs : (objGet o k).isSome = true := (alistGet_isSome_iff o k).mpr h
  cases hv : objGet o k with
  | none => rw [hv] at hs; simp at hs
  | some w => simp [objGetD, hv]

theorem alistGet_eq_some_of_mem_nodup {β : Type} :
    ∀ (l : List (String × β)), (l.map Prod.fst).Nodup →
      ∀ {k : String} {v : β}, (k, v) ∈ l → alistGet l k = some v := by
  intro l
  induction l with
  | nil => intro _ k v h; simp at h
  | cons p rest ih =>
    intro hnd k v h
    rw [List.map_cons, List.nodup_cons] at hnd
    rcases List.mem_cons.mp h with h | h
    · rw [← h, alistGet_cons]
      simp
    · have hk : k ∈ rest.map Prod.fst := List.mem_map.mpr ⟨(k, v), h, rfl⟩
      have hne : ¬(p.1 = k) := fun e => hnd.1 (by rw [e]; exact hk)
      rw [alistGet_cons, if_neg hne]
      exact ih hnd.2 h

theorem mem_of_alistGet_eq_some {β : Type} :
    ∀ (l : List (String × β)) {k : String} {v : β},
      alistGet l k = some v → (k, v) ∈ l := by
  intro l
  induction l with
  | nil => intro k v h; simp [alistGet_nil] at h
  | cons p rest ih =>
    intro k v h
    rw [alistGet_cons] at h
    by_cases hp : p.1 = k
    · rw [if_pos hp] at h
      have : p = (k, v) := by
        cases p
        simp only [Option.some.injEq] at h
        simp_all
      exact this ▸ List.mem_cons_self p rest
    · rw [if_neg hp] at h
      exact List.mem_cons_of_mem p (ih h)

theorem alistGet_eq_of_perm {β : Type} {l₁ l₂ : List (String × β)}
    (hnd : (l₁.map Prod.fst).Nodup) (hp : l₁.Perm l₂) (k : String) :
    alistGet l₁ k = alistGet l₂ k := by
  have hnd₂ : (l₂.map Prod.fst).Nodup := (hp.map Prod.fst).nodup hnd
  cases hv : alistGet l₁ k with
  | some v =>
    exact (alistGet_eq_some_of_mem_nodup l₂ hnd₂
      (hp.mem_iff.mp (mem_of_alistGet_eq_some l₁ hv))).symm
  | none =>
    have h1 : k ∉ l₁.map Prod.fst := (alistGet_eq_none_iff l₁ k).mp hv
    have h2 : k ∉ l₂.map Prod.fst := fun m => h1 ((hp.map Prod.fst).mem_iff.mpr m)
    exact ((alistGet_eq_none_iff l₂ k).mpr h2).symm

theorem alistGet_filter {β : Type} (pred : String → Bool) :
    ∀ (l : List (String × β)) (k : String),
      alistGet (l.filter (fun p => pred p.1)) k
        = if pred k then alistGet l k else none := by
  intro l
  induction l with
  | nil =>
    intro k
    simp only [List.filter_nil, alistGet_nil]
    split <;> rfl
  | cons p rest ih =>
    intro k
    by_cases hpk : p.1 = k
    · subst hpk
      cases hp : pred p.1 with
      | true => simp [List.filter_cons, hp, alistGet_cons]
      | false => simp [List.filter_cons, hp, alistGet_cons, ih]
    · cases hp : pred p.1 with
      | true => simp [List.filter_cons, hp, alistGet_cons, hpk, ih]
      | false => simp [List.filter_cons, hp, alistGet_cons, hpk, ih]

theorem alistGet_filter_removed {β : Type} (rem : List String)
    (l : List (String × β)) (k : String) :
    alistGet (l.filter (fun q => !(rem.contains q.1))) k
      = if !(rem.contains k) then alistGet l k else none :=
  alistGet_filter (fun x => !(rem.contains x)) l k

theorem alistGet_map_entries {g : String → Obj → Obj} :
    ∀ (bundle : List (String × Obj)) (dl : String) (d : Obj),
      alistGet bundle dl = some d →
      alistGet (bundle.map (fun p => (p.1, g p.1 p.2))) dl = some (g dl d) := by
  intro bundle
  induction bundle with
  | nil => intro dl d h; simp [alistGet_nil] at h
  | cons p rest ih =>
    intro dl d h
    rw [alistGet_cons] at h
    rw [List.map_cons, alistGet_cons]
    by_cases hp : p.1 = dl
    · rw [if_pos hp] at h
      rw [if_pos hp]
      simp only [Option.some.injEq] at h
      rw [hp, h]
    · rw [if_neg hp] at h
      rw [if_neg hp]
      exact ih dl d h

theorem alist_snd_eq_of_mem_nodup {β : Type} {l : List (String × β)}
    (hnd : (l.map Prod.fst).Nodup) {k : String} {a b : β}
    (ha : (k, a) ∈ l) (hb : (k, b) ∈ l) : a = b := by
  have h1 := alistGet_eq_some_of_mem_nodup l hnd ha
  have h2 := alistGet_eq_some_of_mem_nodup l hnd hb
  rw [h1] at h2
  exact (Option.some.injEq _ _).mp h2

/-! ## Helper lemmas: JS object assignment -/

theorem alistGet_map_replace (o : Obj) (k v k' : String) :
    alistGet (o.map (fun p => if p.1 = k then (k, v) else p)) k'
      = if k' = k then Option.map (fun _ => v) (alistGet o k)
        else alistGet o k' := by
  induction o with
  | nil =>
    simp only [List.map_nil, alistGet_nil]
    split <;> rfl
  | cons p rest ih =>
    by_cases hp : p.1 = k
    · by_cases hk : k' = k
      · subst hk
        simp [alistGet_cons, hp, ih]
      · have hk2 : ¬(k = k') := fun e => hk e.symm
        simp [alistGet_cons, hp, hk, hk2, ih]
    · by_cases hk : k' = k
      · subst hk
        simp [alistGet_cons, hp, ih]
      · simp [alistGet_cons, hp, hk, ih]

theorem insertNumKey_get (o : Obj) (k v k' : String) (hk : k ∉ objKeys o) :
    alistGet (insertNumKey k v o) k' = if k' = k then some v else alistGet o k' := by
  induction o with
  | nil =>
    simp only [insertNumKey, alistGet_cons, alistGet_nil]
    by_cases h : k' = k
    · rw [if_pos h, if_pos h.symm]
    · rw [if_neg h, if_neg (fun e : k = k' => h e.symm)]
  | cons p rest ih =>
    have hk1 : ¬(k = p.1) := fun e => hk (by rw [objKeys, List.map_cons, e]; exact List.mem_cons_self _ _)
    have hk2 : k ∉ objKeys rest := fun m => hk (by rw [objKeys, List.map_cons]; exact List.mem_cons_of_mem _ m)
    simp only [insertNumKey]
    cases hb : (isArrayIndexKey p.1 && Nat.blt (keyNum p.1) (keyNum k)) with
    | true =>
      rw [if_pos rfl, alistGet_cons, alistGet_cons, ih hk2]
      by_cases hpk : p.1 = k'
      · rw [if_pos hpk, if_pos hpk,
          if_neg (show ¬(k' = k) from fun e => hk1 ((hpk.trans e).symm))]
      · rw [if_neg hpk, if_neg hpk]
    | false =>
      rw [if_neg (by simp), alistGet_cons]
      by_cases h : k' = k
      · rw [if_pos (show (k, v).1 = k' from h.symm), if_pos h]
      · rw [if_neg (show ¬((k, v).1 = k') from fun e => h e.symm), if_neg h,
          alistGet_cons]

theorem alistGet_append_single (o : Obj) (k v k' : String) (hk : k ∉ objKeys o) :
    alistGet (o ++ [(k, v)]) k' = if k' = k then some v else alistGet o k' := by
  induction o with
  | nil =>
    simp only [List.nil_append, alistGet_cons, alistGet_nil]
    by_cases h : k' = k
    · rw [if_pos h, if_pos h.symm]
    · rw [if_neg h, if_neg (fun e : k = k' => h e.symm)]
  | cons p rest ih =>
    have hk1 : ¬(k = p.1) := fun e => hk (by rw [objKeys, List.map_cons, e]; exact List.mem_cons_self _ _)
    have hk2 : k ∉ objKeys rest := fun m => hk (by rw [objKeys, List.map_cons]; exact List.mem_cons_of_mem _ m)
    rw [List.cons_append, alistGet_cons, alistGet_cons, ih hk2]
    by_cases hpk : p.1 = k'
    · rw [if_pos hpk, if_pos hpk,
        if_neg (show ¬(k' = k) from fun e => hk1 ((hpk.trans e).symm))]
    · rw [if_neg hpk, if_neg hpk]

theorem objSet_get (o : Obj) (k v k' : String) :
    alistGet (objSet o k v) k' = if k' = k then some v else alistGet o k' := by
  unfold objSet
  by_cases hm : k ∈ objKeys o
  · rw [if_pos (list_contains_iff.mpr hm), alistGet_map_replace]
    by_cases hk : k' = k
    · rw [if_pos hk, if_pos hk]
      have hs : (alistGet o k).isSome = true := (alistGet_isSome_iff o k).mpr hm
      cases hv : alistGet o k with
      | none => rw [hv] at hs; simp at hs
      | some w => rfl
    · rw [if_neg hk, if_neg hk]
  · have hc : ¬((objKeys o).contains k = true) := fun hc => hm (list_contains_iff.mp hc)
    rw [if_neg hc]
    cases ha : isArrayIndexKey k with
    | true => rw [if_pos rfl]; exact insertNumKey_get o k v k' hm
    | false => rw [if_neg (by simp)]; exact alistGet_append_single o k v k' hm

theorem objKeys_map_replace (o : Obj) (k v : String) :
    objKeys (o.map (fun p => if p.1 = k then (k, v) else p)) = objKeys o := by
  induction o with
  | nil => rfl
  | cons p rest ih =>
    rw [List.map_cons]
    by_cases hp : p.1 = k
    · rw [if_pos hp]
      show k :: objKeys (rest.map _) = p.1 :: objKeys rest
      rw [ih, hp]
    · rw [if_neg hp]
      show p.1 :: objKeys (rest.map _) = p.1 :: objKeys rest
      rw [ih]

theorem insertNumKey_keys_perm (o : Obj) (k v : String) :
    (objKeys (insertNumKey k v o)).Perm (k :: objKeys o) := by
  induction o with
  | nil => exact List.Perm.refl _
  | cons p rest ih =>
    simp only [insertNumKey]
    cases hb : (isArrayIndexKey p.1 && Nat.blt (keyNum p.1) (keyNum k)) with
    | true =>
      rw [if_pos rfl]
      show (p.1 :: objKeys (insertNumKey k v rest)).Perm (k :: p.1 :: objKeys rest)
      exact (ih.cons p.1).trans (List.Perm.swap k p.1 (objKeys rest))
    | false =>
      rw [if_neg (by simp)]
      exact List.Perm.refl _

theorem objSet_keys_of_mem {o : Obj} {k : String} (v : String) (h : k ∈ objKeys o) :
    objKeys (objSet o k v) = objKeys o := by
  unfold objSet
  rw [if_pos (list_contains_iff.mpr h)]
  exact objKeys_map_replace o k v

theorem objSet_keys_perm_of_not_mem {o : Obj} {k : String} (v : String)
    (h : k ∉ objKeys o) : (objKeys (objSet o k v)).Perm (k :: objKeys o) := by
  unfold objSet
  rw [if_neg (fun hc => h (list_contains_iff.mp hc))]
  cases ha : isArrayIndexKey k with
  | true => rw [if_pos rfl]; exact insertNumKey_keys_perm o k v
  | false =>
    rw [if_neg (by simp)]
    show (objKeys (o ++ [(k, v)])).Perm (k :: objKeys o)
    rw [objKeys, List.map_append]
    exact List.perm_append_singleton k (objKeys o)

theorem objSet_keys_append {o : Obj} {k : String} (v : String) (h : k ∉ objKeys o)
    (ha : isArrayIndexKey k = false) : objKeys (objSet o k v) = objKeys o ++ [k] := by
  unfold objSet
  rw [if_neg (fun hc => h (list_contains_iff.mp hc)), if_neg (by simp [ha])]
  rw [objKeys, List.map_append]
  rfl

/-! ## Helper lemmas: folds of objSet -/

theorem foldl_if_filter {α β : Type} (p : α → Bool) (f : β → α → β) :
    ∀ (l : List α) (init : β),
      l.foldl (fun acc x => if p x then f acc x else acc) init
        = (l.filter p).foldl f init := by
  intro l
  induction l with
  | nil => intro init; rfl
  | cons a rest ih =>
    intro init
    cases hp : p a with
    | true =>
      simp only [List.foldl_cons, List.filter_cons, hp, if_true]
      exact ih _
    | false =>
      simp only [List.foldl_cons, List.filter_cons, hp, Bool.false_eq_true, if_false]
      exact ih _

theorem foldl_objSet_get_not_mem (g : String → String) :
    ∀ (ks : List String) (acc : Obj) (k : String), k ∉ ks →
      alistGet (ks.foldl (fun acc k' => objSet acc k' (g k')) acc) k
        = alistGet acc k := by
  intro ks
  induction ks with
  | nil => intro acc k _; rfl
  | cons k0 rest ih =>
    intro acc k hk
    have h1 : k ∉ rest := fun m => hk (List.mem_cons_of_mem _ m)
    have h2 : ¬(k = k0) := fun e => hk (List.mem_cons.mpr (Or.inl e))
    rw [List.foldl_cons, ih _ _ h1, objSet_get, if_neg h2]

theorem foldl_objSet_get_mem (g : String → String) :
    ∀ (ks : List String) (acc : Obj) (k : String), ks.Nodup → k ∈ ks →
      alistGet (ks.foldl (fun acc k' => objSet acc k' (g k')) acc) k
        = some (g k) := by
  intro ks
  induction ks with
  | nil => intro acc k _ h; simp at h
  | cons k0 rest ih =>
    intro acc k hnd hk
    rw [List.nodup_cons] at hnd
    rw [List.foldl_cons]
    rcases List.mem_cons.mp hk with h | h
    · subst h
      rw [foldl_objSet_get_not_mem g rest _ k hnd.1, objSet_get, if_pos rfl]
    · exact ih _ _ hnd.2 h

theorem foldl_objSet_keys_perm (g : String → String) :
    ∀ (ks : List String) (acc : Obj), ks.Nodup → (∀ x ∈ ks, x ∉ objKeys acc) →
      (objKeys (ks.foldl (fun acc k' => objSet acc k' (g k')) acc)).Perm
        (objKeys acc ++ ks) := by
  intro ks
  induction ks with
  | nil =>
    intro acc _ _
    rw [List.append_nil]
    exact List.Perm.refl _
  | cons k0 rest ih =>
    intro acc hnd hdisj
    rw [List.nodup_cons] at hnd
    rw [List.foldl_cons]
    have hk0 : k0 ∉ objKeys acc := hdisj k0 (List.mem_cons_self _ _)
    have hperm1 : (objKeys (objSet acc k0 (g k0))).Perm (k0 :: objKeys acc) :=
      objSet_keys_perm_of_not_mem _ hk0
    have hdisj2 : ∀ x ∈ rest, x ∉ objKeys (objSet acc k0 (g k0)) := by
      intro x hx hmem
      rcases List.mem_cons.mp (hperm1.mem_iff.mp hmem) with h | h
      · exact hnd.1 (h ▸ hx)
      · exact hdisj x (List.mem_cons_of_mem _ hx) h
    refine (ih (objSet acc k0 (g k0)) hnd.2 hdisj2).trans ?_
    refine (List.Perm.append_right rest hperm1).trans ?_
    exact List.perm_middle.symm

theorem foldl_objSet_keys_eq (g : String → String) :
    ∀ (ks : List String) (acc : Obj), (∀ x ∈ ks, isArrayIndexKey x = false) →
      (∀ x ∈ ks, x ∉ objKeys acc) → ks.Nodup →
      objKeys (ks.foldl (fun acc k' => objSet acc k' (g k')) acc)
        = objKeys acc ++ ks := by
  intro ks
  induction ks with
  | nil =>
    intro acc _ _ _
    rw [List.append_nil]
    rfl
  | cons k0 rest ih =>
    intro acc hidx hdisj hnd
    rw [List.nodup_cons] at hnd
    rw [List.foldl_cons]
    have hk0 : k0 ∉ objKeys acc := hdisj k0 (List.mem_cons_self _ _)
    have happ : objKeys (objSet acc k0 (g k0)) = objKeys acc ++ [k0] :=
      objSet_keys_append _ hk0 (hidx k0 (List.mem_cons_self _ _))
    have hdisj2 : ∀ x ∈ rest, x ∉ objKeys (objSet acc k0 (g k0)) := by
      intro x hx hmem
      rw [happ] at hmem
      rcases List.mem_append.mp hmem with h | h
      · exact hdisj x (List.mem_cons_of_mem _ hx) h
      · exact hnd.1 ((List.mem_singleton.mp h) ▸ hx)
    rw [ih (objSet acc k0 (g k0)) (fun x hx => hidx x (List.mem_cons_of_mem _ hx))
      hdisj2 hnd.2, happ, List.append_assoc]
    rfl

theorem foldl_objSet_congr :
    ∀ (ks : List String) (acc : Obj) (g₁ g₂ : String → String),
      (∀ k ∈ ks, g₁ k = g₂ k) →
      ks.foldl (fun acc k' => objSet acc k' (g₁ k')) acc
        = ks.foldl (fun acc k' => objSet acc k' (g₂ k')) acc := by
  intro ks
  induction ks with
  | nil => intro acc g₁ g₂ _; rfl
  | cons k0 rest ih =>
    intro acc g₁ g₂ h
    rw [List.foldl_cons, List.foldl_cons, h k0 (List.mem_cons_self _ _)]
    exact ih _ _ _ (fun k hk => h k (List.mem_cons_of_mem _ hk))

/-! ## Helper lemmas: the JS sort order on strings -/

theorem charsLe_cons_iff {x y : Char} {xs ys : List Char} :
    charsLe (x :: xs) (y :: ys) = true
      ↔ x < y ∨ (x = y ∧ charsLe xs ys = true) := by
  simp only [charsLe]
  by_cases h1 : x < y
  · simp [h1]
  · by_cases h2 : y < x
    · have hne : ¬(x = y) := fun e => absurd h2 (by rw [e]; exact lt_irrefl y)
      simp [h1, h2, hne]
    · have he : x = y := le_antisymm (not_lt.mp h2) (not_lt.mp h1)
      simp [h1, h2, he]

theorem charsLe_total : ∀ (a b : List Char), charsLe a b = true ∨ charsLe b a = true := by
  intro a
  induction a with
  | nil => intro b; exact Or.inl rfl
  | cons x xs ih =>
    intro b
    cases b with
    | nil => exact Or.inr rfl
    | cons y ys =>
      rcases lt_trichotomy x y with h | h | h
      · exact Or.inl (charsLe_cons_iff.mpr (Or.inl h))
      · rcases ih ys with h2 | h2
        · exact Or.inl (charsLe_cons_iff.mpr (Or.inr ⟨h, h2⟩))
        · exact Or.inr (charsLe_cons_iff.mpr (Or.inr ⟨h.symm, h2⟩))
      · exact Or.inr (charsLe_cons_iff.mpr (Or.inl h))

theorem charsLe_trans :
    ∀ (a b c : List Char), charsLe a b = true → charsLe b c = true →
      charsLe a c = true := by
  intro a
  induction a with
  | nil => intro b c _ _; rfl
  | cons x xs ih =>
    intro b c hab hbc
    cases b with
    | nil => exact absurd hab (by simp [charsLe])
    | cons y ys =>
      cases c with
      | nil => exact absurd hbc (by simp [charsLe])
      | cons z zs =>
        rcases charsLe_cons_iff.mp hab with h1 | ⟨h1, h1'⟩ <;>
          rcases charsLe_cons_iff.mp hbc with h2 | ⟨h2, h2'⟩
        · exact charsLe_cons_iff.mpr (Or.inl (h1.trans h2))
        · exact charsLe_cons_iff.mpr (Or.inl (h2 ▸ h1))
        · exact charsLe_cons_iff.mpr (Or.inl (h1 ▸ h2))
        · exact charsLe_cons_iff.mpr (Or.inr ⟨h1.trans h2, ih ys zs h1' h2'⟩)

theorem charsLe_antisymm :
    ∀ (a b : List Char), charsLe a b = true → charsLe b a = true → a = b := by
  intro a
  induction a with
  | nil =>
    intro b _ hba
    cases b with
    | nil => rfl
    | cons y ys => exact absurd hba (by simp [charsLe])
  | cons x xs ih =>
    intro b hab hba
    cases b with
    | nil => exact absurd hab (by simp [charsLe])
    | cons y ys =>
      rcases charsLe_cons_iff.mp hab with h1 | ⟨h1, h1'⟩ <;>
        rcases charsLe_cons_iff.mp hba with h2 | ⟨h2, h2'⟩
      · exact absurd (h1.trans h2) (lt_irrefl x)
      · exact absurd h1 (by rw [h2]; exact lt_irrefl x)
      · exact absurd h2 (by rw [h1]; exact lt_irrefl y)
      · rw [h1, ih ys h1' h2']

instance : IsTotal String strLe :=
  ⟨fun a b => charsLe_total a.data b.data⟩

instance : IsTrans String strLe :=
  ⟨fun a b c hab hbc => charsLe_trans a.data b.data c.data hab hbc⟩

instance : IsAntisymm String strLe := by
  refine ⟨fun a b hab hba => ?_⟩
  cases a with
  | mk da =>
    cases b with
    | mk db => rw [charsLe_antisymm da db hab hba]

theorem sortStr_perm (l : List String) : (sortStr l).Perm l :=
  List.perm_insertionSort strLe l

theorem sortStr_sorted (l : List String) : List.Sorted strLe (sortStr l) :=
  List.sorted_insertionSort strLe l

theorem sortStr_eq_of_perm {l₁ l₂ : List String} (h : l₁.Perm l₂) :
    sortStr l₁ = sortStr l₂ :=
  List.eq_of_perm_of_sorted
    ((sortStr_perm l₁).trans (h.trans (sortStr_perm l₂).symm))
    (sortStr_sorted l₁) (sortStr_sorted l₂)

theorem sortStr_eq_self {l : List String} (h : List.Sorted strLe l) :
    sortStr l = l :=
  List.eq_of_perm_of_sorted (sortStr_perm l) (sortStr_sorted l) h

/-! ## Helper lemmas: characterization of cleanupJson -/

theorem cleanupJson_eq_fold (m : Obj) (K : List String) :
    cleanupJson m K
      = (keptKeys m K).foldl
          (fun acc k => objSet acc k (cleanValue (objGetD m k))) [] := by
  unfold cleanupJson keptKeys
  exact foldl_if_filter _ _ _ _

theorem keptKeys_nodup {m : Obj} (K : List String) (h : (objKeys m).Nodup) :
    (keptKeys m K).Nodup :=
  ((sortStr_perm (objKeys m)).symm.nodup h).filter _

theorem keptKeys_sorted (m : Obj) (K : List String) :
    List.Sorted strLe (keptKeys m K) :=
  (sortStr_sorted (objKeys m)).filter _

theorem mem_keptKeys {m : Obj} {K : List String} {k : String} :
    k ∈ keptKeys m K ↔ (k ∈ objKeys m ∧ K.contains k = true) := by
  unfold keptKeys
  rw [List.mem_filter, (sortStr_perm (objKeys m)).mem_iff]

theorem cleanupJson_keys_perm {m : Obj} (K : List String)
    (h : (objKeys m).Nodup) :
    (objKeys (cleanupJson m K)).Perm (keptKeys m K) := by
  rw [cleanupJson_eq_fold]
  have hp := foldl_objSet_keys_perm (fun k => cleanValue (objGetD m k))
    (keptKeys m K) [] (keptKeys_nodup K h)
    (by intro x _ hx; simp [objKeys] at hx)
  simpa using hp

theorem cleanupJson_get_mem {m : Obj} {K : List String} {k : String}
    (h : (objKeys m).Nodup) (hk : k ∈ keptKeys m K) :
    objGet (cleanupJson m K) k = some (cleanValue (objGetD m k)) := by
  rw [cleanupJson_eq_fold]
  exact foldl_objSet_get_mem _ _ _ _ (keptKeys_nodup K h) hk

theorem cleanupJson_get_not_mem {m : Obj} {K : List String} {k : String}
    (hk : k ∉ keptKeys m K) : objGet (cleanupJson m K) k = none := by
  rw [cleanupJson_eq_fold]
  exact foldl_objSet_get_not_mem _ _ _ _ hk

theorem cleanupJson_idem_aux {m : Obj} {K : List String}
    (h : (objKeys m).Nodup) :
    cleanupJson (cleanupJson m K) K = cleanupJson m K := by
  have hperm : (objKeys (cleanupJson m K)).Perm (keptKeys m K) :=
    cleanupJson_keys_perm K h
  have hsort : sortStr (objKeys (cleanupJson m K)) = keptKeys m K := by
    rw [sortStr_eq_of_perm hperm]
    exact sortStr_eq_self (keptKeys_sorted m K)
  have hkept : keptKeys (cleanupJson m K) K = keptKeys m K := by
    show (sortStr (objKeys (cleanupJson m K))).filter _ = keptKeys m K
    rw [hsort]
    apply List.filter_eq_self.mpr
    intro a ha
    exact (List.mem_filter.mp ha).2
  rw [cleanupJson_eq_fold (cleanupJson m K) K, hkept]
  conv_rhs => rw [cleanupJson_eq_fold m K]
  apply foldl_objSet_congr
  intro k hk
  have hg : objGet (cleanupJson m K) k = some (cleanValue (objGetD m k)) :=
    cleanupJson_get_mem h hk
  have hgd : objGetD (cleanupJson m K) k = cleanValue (objGetD m k) := by
    rw [objGetD, hg]
    rfl
  rw [hgd, cleanValue_idem]

/-! ## Helper lemmas: the reconciler -/

theorem mem_locallyAddedKeys {localRef d : Obj} {k : String} :
    k ∈ locallyAddedKeys localRef d ↔ (k ∈ objKeys localRef ∧ k ∉ objKeys d) := by
  unfold locallyAddedKeys
  simp only [List.mem_filter, Bool.not_eq_true']
  rw [list_contains_eq_false_iff]

theorem mem_locallyRemovedKeys {localRef d : Obj} {k : String} :
    k ∈ locallyRemovedKeys localRef d ↔ (k ∈ objKeys d ∧ k ∉ objKeys localRef) := by
  unfold locallyRemovedKeys
  simp only [List.mem_filter, Bool.not_eq_true']
  rw [list_contains_eq_false_iff]

theorem reconcileEntry_snd (localRef d : Obj) (dl : String) (p : String × Obj) :
    (reconcileEntry localRef d dl p).2
      = (if p.1 = dl then
            (locallyAddedKeys localRef d).foldl
              (fun acc k => objSet acc k (objGetD localRef k)) p.2
          else p.2).filter
          (fun q => !((locallyRemovedKeys localRef d).contains q.1)) := rfl

theorem reconcileBundle_eq {bundle : List (String × Obj)} {localRef d : Obj}
    {dl : String} (hd : alistGet bundle dl = some d) :
    reconcileBundle bundle localRef dl
      = some (bundle.map (reconcileEntry localRef d dl)) := by
  unfold reconcileBundle
  rw [hd]

theorem reconcileBundle_eq_none {bundle : List (String × Obj)} {localRef : Obj}
    {dl : String} (hd : alistGet bundle dl = none) :
    reconcileBundle bundle localRef dl = none := by
  unfold reconcileBundle
  rw [hd]

theorem not_mem_objKeys_filter_removed {o : Obj} {rem : List String} {k : String}
    (hk : k ∈ rem) :
    k ∉ objKeys (o.filter (fun q => !(rem.contains q.1))) := by
  intro hmem
  rcases List.mem_map.mp hmem with ⟨q, hq, hqe⟩
  have hpred := (List.mem_filter.mp hq).2
  rw [Bool.not_eq_true', hqe, list_contains_eq_false_iff] at hpred
  exact hpred hk

theorem reconcile_removed_gone {bundle : List (String × Obj)} {localRef d : Obj}
    {dl l : String} {m' : Obj}
    (hmem : (l, m') ∈ bundle.map (reconcileEntry localRef d dl))
    {k : String} (hkd : k ∈ objKeys d) (hkl : k ∉ objKeys localRef) :
    k ∉ objKeys m' := by
  rcases List.mem_map.mp hmem with ⟨p, _, he⟩
  have h2 := congrArg Prod.snd he
  rw [reconcileEntry_snd, show ((l, m') : String × Obj).2 = m' from rfl] at h2
  rw [← h2]
  exact not_mem_objKeys_filter_removed (mem_locallyRemovedKeys.mpr ⟨hkd, hkl⟩)

theorem alistGet_map_reconcileEntry (localRef d : Obj) (dl : String) :
    ∀ (bundle : List (String × Obj)) (d0 : Obj), alistGet bundle dl = some d0 →
      alistGet (bundle.map (reconcileEntry localRef d dl)) dl
        = some (reconcileEntry localRef d dl (dl, d0)).2 := by
  intro bundle
  induction bundle with
  | nil => intro d0 h; simp [alistGet_nil] at h
  | cons p rest ih =>
    intro d0 h
    rw [alistGet_cons] at h
    rw [List.map_cons, alistGet_cons]
    by_cases hp : p.1 = dl
    · rw [if_pos hp] at h
      have hpd : p.2 = d0 := by
        simpa using h
      rw [if_pos (show (reconcileEntry localRef d dl p).1 = dl from hp)]
      have hpe : p = (dl, d0) := by
        rw [← hp, ← hpd]
      rw [hpe]
    · rw [if_neg hp] at h
      rw [if_neg (show ¬((reconcileEntry localRef d dl p).1 = dl) from hp)]
      exact ih d0 h

theorem reconcile_added_default {bundle : List (String × Obj)} {localRef d : Obj}
    {dl : String} (hl : (objKeys localRef).Nodup)
    (hd : alistGet bundle dl = some d) {k : String}
    (hkl : k ∈ objKeys localRef) (hkd : k ∉ objKeys d) :
    ∃ d', alistGet (bundle.map (reconcileEntry localRef d dl)) dl = some d'
      ∧ objGet d' k = objGet localRef k
      ∧ (objGet localRef k).isSome = true := by
  refine ⟨(reconcileEntry localRef d dl (dl, d)).2,
    alistGet_map_reconcileEntry localRef d dl bundle d hd, ?_, ?_⟩
  · rw [reconcileEntry_snd]
    have hkrem : k ∉ locallyRemovedKeys localRef d := by
      intro hmem
      exact (mem_locallyRemovedKeys.mp hmem).2 hkl
    show alistGet _ k = _
    rw [alistGet_filter_removed, if_pos
      (show (!((locallyRemovedKeys localRef d).contains k)) = true by
        rw [Bool.not_eq_true', list_contains_eq_false_iff]
        exact hkrem)]
    rw [if_pos (show ((dl, d) : String × Obj).1 = dl from rfl)]
    have hand : (locallyAddedKeys localRef d).Nodup := hl.filter _
    have hmema : k ∈ locallyAddedKeys localRef d :=
      mem_locallyAddedKeys.mpr ⟨hkl, hkd⟩
    rw [foldl_objSet_get_mem _ _ _ _ hand hmema]
    rw [alistGet_eq_some_getD hkl]
  · rw [alistGet_eq_some_getD hkl]
    rfl

theorem reconcile_other_keys {bundle : List (String × Obj)} {localRef d : Obj}
    {dl : String} (hb : (bundle.map Prod.fst).Nodup) {l : String} {m m' : Obj}
    {k : String} (hm : (l, m) ∈ bundle)
    (hm' : (l, m') ∈ bundle.map (reconcileEntry localRef d dl))
    (hnr : ¬(k ∈ objKeys d ∧ k ∉ objKeys localRef))
    (hna : ¬(l = dl ∧ k ∈ objKeys localRef ∧ k ∉ objKeys d)) :
    objGet m' k = objGet m k := by
  rcases List.mem_map.mp hm' with ⟨p, hp, he⟩
  have hl1 : p.1 = l := congrArg Prod.fst he
  have hpm : (l, p.2) ∈ bundle := by
    rw [← hl1]
    exact hp
  have hm2 : p.2 = m := alist_snd_eq_of_mem_nodup hb hpm hm
  have he2 := congrArg Prod.snd he
  rw [reconcileEntry_snd, show ((l, m') : String × Obj).2 = m' from rfl] at he2
  rw [objGet, ← he2, alistGet_filter_removed]
  have hkrem : k ∉ locallyRemovedKeys localRef d :=
    fun hmem => hnr (mem_locallyRemovedKeys.mp hmem)
  rw [if_pos (show (!((locallyRemovedKeys localRef d).contains k)) = true by
    rw [Bool.not_eq_true', list_contains_eq_false_iff]
    exact hkrem)]
  by_cases hldl : p.1 = dl
  · rw [if_pos hldl]
    have hka : k ∉ locallyAddedKeys localRef d := by
      intro hmem
      rcases mem_locallyAddedKeys.mp hmem with ⟨h1, h2⟩
      exact hna ⟨by rw [← hl1]; exact hldl, h1, h2⟩
    rw [foldl_objSet_get_not_mem _ _ _ _ hka, hm2]
    rfl
  · rw [if_neg hldl, hm2]
    rfl

/-! ## Helper lemmas: the usage scanner -/

theorem isPrefixB_iff : ∀ (a b : List Char),
    isPrefixB a b = true ↔ List.IsPrefix a b := by
  intro a
  induction a with
  | nil =>
    intro b
    simp [isPrefixB, List.nil_prefix]
  | cons x xs ih =>
    intro b
    cases b with
    | nil =>
      simp only [isPrefixB, List.prefix_nil]
      simp
    | cons y ys =>
      rw [show isPrefixB (x :: xs) (y :: ys) = ((x == y) && isPrefixB xs ys)
        from rfl]
      rw [List.cons_prefix_cons]
      simp [ih]

theorem isInfixB_iff : ∀ (hay needle : List Char),
    isInfixB needle hay = true ↔ List.IsInfix needle hay := by
  intro hay
  induction hay with
  | nil =>
    intro needle
    simp [isInfixB, List.isEmpty_iff, List.infix_nil]
  | cons c rest ih =>
    intro needle
    rw [show isInfixB needle (c :: rest)
      = (isPrefixB needle (c :: rest) || isInfixB needle rest) from rfl]
    rw [List.infix_cons_iff]
    simp [isPrefixB_iff, ih]

theorem strIncludes_iff {code needle : String} :
    strIncludes code needle = true ↔ List.IsInfix needle.data code.data :=
  isInfixB_iff code.data needle.data

theorem isUnusedKey_eq_false_iff {code k : String} :
    isUnusedKey code k = false ↔ specKeyUsed code k := by
  unfold isUnusedKey specKeyUsed
  simp only [← strIncludes_iff]
  cases strIncludes code ("\"" ++ k ++ "\"") <;>
    cases strIncludes code ("\x60" ++ k ++ "\x60") <;>
      cases strIncludes code ("\x27" ++ k ++ "\x27") <;>
        cases strIncludes code ("\x60" ++ variantKey1 k) <;>
          cases strIncludes code ("\x60" ++ variantKey2 k) <;> simp

theorem dropLast_dropLast_eq_nil {α : Type} :
    ∀ (l : List α), l.length ≤ 2 → l.dropLast.dropLast = [] := by
  intro l h
  match l with
  | [] => rfl
  | [a] => rfl
  | [a, b] => rfl
  | a :: b :: c :: t => simp at h

theorem dropLast_eq_nil_of_len_one {α : Type} :
    ∀ (l : List α), l.length = 1 → l.dropLast = [] := by
  intro l h
  match l with
  | [] => simp at h
  | [a] => rfl
  | a :: b :: t => simp at h

theorem variantKey2_degenerate {key : String} (h : (splitDot key).length ≤ 2) :
    variantKey2 key = ".$\x7b" := by
  unfold variantKey2
  rw [dropLast_dropLast_eq_nil _ h]
  decide

theorem variantKey1_degenerate {key : String} (h : (splitDot key).length = 1) :
    variantKey1 key = ".$\x7b" := by
  unfold variantKey1
  rw [dropLast_eq_nil_of_len_one _ h]
  decide

theorem all_id_eq_false_iff (oks : List Bool) :
    (oks.all (fun b => b)) = false ↔ false ∈ oks := by
  induction oks with
  | nil => simp
  | cons b rest ih =>
    cases b with
    | true => simp [ih]
    | false => simp

/-! ## Model validation on the spec's concrete scenarios -/

/-- Scenario "added key": a key authored locally is seeded into the pulled
default locale with the local value. -/
theorem scenario_added_key :
    reconcileBundle [("en", [("a", "A")])] [("a", "A"), ("b", "B")] "en"
      = some [("en", [("a", "A"), ("b", "B")])] := by decide

/-- Scenario "removed key": a key retired from the reference locale
disappears from every locale of the pulled bundle. -/
theorem scenario_removed_key :
    reconcileBundle
        [("en", [("a", "A"), ("b", "B")]), ("fr", [("a", "A2"), ("b", "B2")])]
        [("a", "A")] "en"
      = some [("en", [("a", "A")]), ("fr", [("a", "A2")])] := by decide

/-- Scenario "unused key detection". -/
theorem scenario_unused_key :
    scanUnusedKeys "t(\"home.title\")" ["home.title", "home.count"]
      = ["home.count"] := by decide

/-- Scenario "dynamic suffix match". -/
theorem scenario_dynamic_suffix :
    isUnusedKey "t(\x60items.$\x7bfield\x7d\x60)" "items.price" = false := by
  decide

/-- The serialization format of every write site on a one-entry object. -/
theorem serializeLocale_example :
    serializeLocale [("a", "b")] = "\x7b\n  \"a\": \"b\"\n\x7d\n" := by decide

/-! ## Claims -/

/-- C1: after the pull merge with a present default-locale map, no key of
`R - L` (remote default-locale keys minus local reference keys) survives in
any locale map of the reconciled bundle; every key of `L - R` is present in
the default-locale map with the locally authored reference value; all other
keys keep the values taken from the remote bundle. -/
theorem C1_reconcile_sets (bundle : List (String × Obj)) (localRef d : Obj)
    (dl : String) (bundle' : List (String × Obj))
    (hb : (bundle.map Prod.fst).Nodup) (hl : (objKeys localRef).Nodup)
    (hd : alistGet bundle dl = some d)
    (hrec : reconcileBundle bundle localRef dl = some bundle') :
    (∀ l m', (l, m') ∈ bundle' → ∀ k, k ∈ objKeys d → k ∉ objKeys localRef →
        k ∉ objKeys m')
    ∧ (∀ k, k ∈ objKeys localRef → k ∉ objKeys d →
        ∃ d', alistGet bundle' dl = some d'
          ∧ objGet d' k = objGet localRef k
          ∧ (objGet localRef k).isSome = true)
    ∧ (∀ l m m' k, (l, m) ∈ bundle → (l, m') ∈ bundle' →
        ¬(k ∈ objKeys d ∧ k ∉ objKeys localRef) →
        ¬(l = dl ∧ k ∈ objKeys localRef ∧ k ∉ objKeys d) →
        objGet m' k = objGet m k) := by
  rw [reconcileBundle_eq hd] at hrec
  have hb' : bundle' = bundle.map (reconcileEntry localRef d dl) :=
    ((Option.some.injEq _ _).mp hrec).symm
  subst hb'
  refine ⟨?_, ?_, ?_⟩
  · intro l m' hmem k hkd hkl
    exact reconcile_removed_gone hmem hkd hkl
  · intro k hkl hkd
    exact reconcile_added_default hl hd hkl hkd
  · intro l m m' k hm hm' hnr hna
    exact reconcile_other_keys hb hm hm' hnr hna

theorem C1_witness :
    "b" ∉ objKeys [("a", "A2")]
    ∧ (alistGet [("en", [("a", "A"), ("c", "C")]), ("fr", [("a", "A2")])] "en").isSome
        = true
    ∧ objGet [("a", "A2")] "a" = objGet [("a", "A2"), ("b", "B2")] "a" := by
  have h := C1_reconcile_sets
    [("en", [("a", "A"), ("b", "B")]), ("fr", [("a", "A2"), ("b", "B2")])]
    [("a", "A"), ("c", "C")] [("a", "A"), ("b", "B")] "en"
    [("en", [("a", "A"), ("c", "C")]), ("fr", [("a", "A2")])]
    (by decide) (by decide) (by decide) (by decide)
  refine ⟨h.1 "fr" [("a", "A2")] (by decide) "b" (by decide) (by decide), ?_,
    h.2.2 "fr" [("a", "A2"), ("b", "B2")] [("a", "A2")] "a"
      (by decide) (by decide) (by decide) (by decide)⟩
  obtain ⟨d', hd', -, -⟩ := h.2.1 "c" (by decide) (by decide)
  rw [hd']
  rfl

/-- C2 counterexample: with local reference `a ↦ A` and remote bundle mapping
both locales to the empty map, the newly-born key `a` is seeded into the
default locale only; in the reconciled bundle the `fr` map is still empty, so
the claim's provisional value `some "A"` does not appear there. -/
theorem C2_counterexample :
    reconcileBundle [("en", []), ("fr", [])] [("a", "A")] "en"
      = some [("en", [("a", "A")]), ("fr", [])]
    ∧ alistGet [("en", [("a", "A")]), ("fr", ([] : Obj))] "fr" = some ([] : Obj)
    ∧ objGet ([] : Obj) "a" = none
    ∧ objGet ([] : Obj) "a" ≠ some (objGetD [("a", "A")] "a") := by decide

/-- C2 (amended): a newly-born key is seeded, with its locally authored value,
only into the default-locale map of the reconciled bundle; every non-reference
locale map is left unchanged at that key — in particular the key stays absent
there until a later push and remote translation provide it. -/
theorem C2_newborn_seeded_only_in_default (bundle : List (String × Obj))
    (localRef d : Obj) (dl : String) (bundle' : List (String × Obj))
    (hb : (bundle.map Prod.fst).Nodup) (hl : (objKeys localRef).Nodup)
    (hd : alistGet bundle dl = some d)
    (hrec : reconcileBundle bundle localRef dl = some bundle') :
    (∀ k, k ∈ objKeys localRef → k ∉ objKeys d →
      ∃ d', alistGet bundle' dl = some d'
        ∧ objGet d' k = objGet localRef k
        ∧ (objGet localRef k).isSome = true)
    ∧ (∀ l m m' k, (l, m) ∈ bundle → (l, m') ∈ bundle' → l ≠ dl →
        k ∈ objKeys localRef → k ∉ objKeys d → objGet m' k = objGet m k) := by
  rw [reconcileBundle_eq hd] at hrec
  have hb' : bundle' = bundle.map (reconcileEntry localRef d dl) :=
    ((Option.some.injEq _ _).mp hrec).symm
  subst hb'
  constructor
  · intro k hkl hkd
    exact reconcile_added_default hl hd hkl hkd
  · intro l m m' k hm hm' hne hkl hkd
    exact reconcile_other_keys hb hm hm' (fun h => h.2 hkl) (fun h => hne h.1)

theorem C2_witness :
    (alistGet [("en", [("a", "A")]), ("fr", [("x", "X")])] "en").isSome = true
    ∧ objGet [("x", "X")] "a" = objGet [("x", "X")] "a" := by
  have h := C2_newborn_seeded_only_in_default
    [("en", []), ("fr", [("x", "X")])] [("a", "A")] [] "en"
    [("en", [("a", "A")]), ("fr", [("x", "X")])]
    (by decide) (by decide) (by decide) (by decide)
  refine ⟨?_, h.2 "fr" [("x", "X")] [("x", "X")] "a"
    (by decide) (by decide) (by decide) (by decide) (by decide)⟩
  obtain ⟨d', hd', -, -⟩ := h.1 "a" (by decide) (by decide)
  rw [hd']
  rfl

/-- C3 counterexample: the kept value `"\nHello"` is returned unchanged by the
cleanup — the strip guards test only for a leading or trailing space
character — while the spec's unconditional whitespace stripping yields
`"Hello"`. -/
theorem C3_counterexample :
    objGet (cleanupJson [("k", "\nHello")] ["k"]) "k" = some "\nHello"
    ∧ specCleanValue "\nHello" = "Hello"
    ∧ some "\nHello" ≠ some (specCleanValue "\nHello") := by decide

/-- C3 (amended): for every key kept by the cleanup, the output value is the
input value with every run of one-or-more tabs replaced by a single space,
then all leading whitespace stripped provided the value then starts with a
space character, then all trailing whitespace stripped provided the value
then ends with a space character; in particular `"\tHello \t"` normalizes to
`"Hello"`. -/
theorem C3_value_cleanup (m : Obj) (K : List String) (k v : String)
    (hnd : (objKeys m).Nodup) (hget : objGet m k = some v)
    (hk : K.contains k = true) :
    objGet (cleanupJson m K) k
      = some (cleanStep3 (cleanStep2 (replaceTabRuns v)))
    ∧ cleanValue "\tHello \t" = "Hello" := by
  constructor
  · have hget' : alistGet m k = some v := hget
    have hmem : k ∈ objKeys m :=
      (alistGet_isSome_iff m k).mp (by rw [hget']; rfl)
    have hkept : k ∈ keptKeys m K := mem_keptKeys.mpr ⟨hmem, hk⟩
    rw [cleanupJson_get_mem hnd hkept]
    have hv : objGetD m k = v := by
      rw [objGetD, hget]
      rfl
    rw [hv]
    show some (cleanStep3 (cleanStep2 (cleanStep1 v))) = _
    rw [cleanStep1_eq_replaceTabRuns]
  · decide

theorem C3_witness :
    objGet (cleanupJson [("k", "\tHello \t")] ["k"]) "k"
      = some (cleanStep3 (cleanStep2 (replaceTabRuns "\tHello \t")))
    ∧ cleanValue "\tHello \t" = "Hello" :=
  C3_value_cleanup [("k", "\tHello \t")] ["k"] "k" "\tHello \t"
    (by decide) (by decide) (by decide)

/-- C4: normalization is idempotent — cleaning an already cleaned map (with
unique keys, as any parsed JSON object has) returns it unchanged. -/
theorem C4_cleanupJson_idem (m : Obj) (K : List String)
    (h : (objKeys m).Nodup) :
    cleanupJson (cleanupJson m K) K = cleanupJson m K :=
  cleanupJson_idem_aux h

theorem C4_witness :
    cleanupJson (cleanupJson [("b", "x\t\ty"), ("a", " v ")] ["a", "b"]) ["a", "b"]
      = cleanupJson [("b", "x\t\ty"), ("a", " v ")] ["a", "b"] :=
  C4_cleanupJson_idem [("b", "x\t\ty"), ("a", " v ")] ["a", "b"] (by decide)

/-- C5 counterexample: with array-index keys `"10"` and `"9"`, the cleaned
object lists `"9"` before `"10"` (JS property order enumerates integer-like
keys in ascending numeric order), although `"10"` precedes `"9"`
lexicographically — so the serialized output is not in ascending
lexicographic key order. -/
theorem C5_counterexample :
    cleanupJson [("10", "a"), ("9", "b")] ["10", "9"]
      = [("9", "b"), ("10", "a")]
    ∧ strLeB "10" "9" = true
    ∧ strLeB "9" "10" = false := by decide

/-- C5 (amended): the key set of the cleaned object is exactly the keys of the
input that belong to the allowed set, and the result is insertion-order
independent; provided no key of the input is an array-index string (the
canonical decimal form of an integer below 2^32 - 1), the output lists its
keys in ascending lexicographic order — array-index keys are instead listed
first, numerically, per JS object property order. -/
theorem C5_keyset_and_order (m : Obj) (K : List String)
    (h : (objKeys m).Nodup) :
    (∀ k, k ∈ objKeys (cleanupJson m K) ↔ (k ∈ objKeys m ∧ k ∈ K))
    ∧ ((∀ x ∈ objKeys m, isArrayIndexKey x = false) →
        objKeys (cleanupJson m K) = keptKeys m K
          ∧ List.Sorted strLe (objKeys (cleanupJson m K)))
    ∧ (∀ m', (objKeys m').Nodup → m'.Perm m →
        cleanupJson m' K = cleanupJson m K) := by
  refine ⟨?_, ?_, ?_⟩
  · intro k
    rw [(cleanupJson_keys_perm K h).mem_iff, mem_keptKeys, list_contains_iff]
  · intro hidx
    have hkeq : objKeys (cleanupJson m K) = keptKeys m K := by
      rw [cleanupJson_eq_fold]
      have := foldl_objSet_keys_eq (fun k => cleanValue (objGetD m k))
        (keptKeys m K) []
        (fun x hx => hidx x (mem_keptKeys.mp hx).1)
        (by intro x _ hx; simp [objKeys] at hx)
        (keptKeys_nodup K h)
      rw [this]
      rfl
    exact ⟨hkeq, by rw [hkeq]; exact keptKeys_sorted m K⟩
  · intro m' hnd' hperm
    have hkeysperm : (objKeys m').Perm (objKeys m) := hperm.map Prod.fst
    have hkept : keptKeys m' K = keptKeys m K := by
      unfold keptKeys
      rw [sortStr_eq_of_perm hkeysperm]
    rw [cleanupJson_eq_fold m' K, cleanupJson_eq_fold m K, hkept]
    apply foldl_objSet_congr
    intro k _
    have hgeq : objGet m' k = objGet m k := alistGet_eq_of_perm hnd' hperm k
    have h2 : objGetD m' k = objGetD m k := by
      unfold objGetD
      rw [hgeq]
    rw [h2]

theorem C5_witness :
    ("a" ∈ objKeys (cleanupJson [("b", "2"), ("a", "1")] ["a"])
        ↔ ("a" ∈ objKeys [("b", "2"), ("a", "1")] ∧ "a" ∈ ["a"]))
    ∧ objKeys (cleanupJson [("b", "2"), ("a", "1")] ["a"])
        = keptKeys [("b", "2"), ("a", "1")] ["a"]
    ∧ List.Sorted strLe (objKeys (cleanupJson [("b", "2"), ("a", "1")] ["a"]))
    ∧ cleanupJson [("a", "1"), ("b", "2")] ["a"]
        = cleanupJson [("b", "2"), ("a", "1")] ["a"] := by
  have h := C5_keyset_and_order [("b", "2"), ("a", "1")] ["a"] (by decide)
  exact ⟨h.1 "a", (h.2.1 (by decide)).1, (h.2.1 (by decide)).2,
    h.2.2 [("a", "1"), ("b", "2")] (by decide) (List.Perm.swap _ _ _)⟩

/-- C6: when the downloaded bundle lacks the default locale, the pull of that
project fails fatally for that project only — no locale files are written for
it and no exit occurs, and the remaining projects of the run are still
processed exactly as they would be on their own. -/
theorem C6_missing_default_locale (inp : PullInput) (rest : List PullInput)
    (h : alistGet inp.bundle inp.dl = none) :
    pullProjectModel inp = PullOutcome.missingDefaultLocale
    ∧ pullWrites (pullProjectModel inp) = []
    ∧ runPull (inp :: rest)
        = (PullOutcome.missingDefaultLocale :: (runPull rest).1, (runPull rest).2) := by
  have h1 : pullProjectModel inp = PullOutcome.missingDefaultLocale := by
    unfold pullProjectModel
    rw [reconcileBundle_eq_none h]
  refine ⟨h1, by rw [h1]; rfl, ?_⟩
  simp [runPull, h1, pullExits]

theorem C6_witness :
    pullProjectModel ⟨[("fr", [("x", "X")])], [("a", "A")], "en", true⟩
      = PullOutcome.missingDefaultLocale
    ∧ pullWrites (pullProjectModel ⟨[("fr", [("x", "X")])], [("a", "A")], "en", true⟩)
        = []
    ∧ runPull [⟨[("fr", [("x", "X")])], [("a", "A")], "en", true⟩]
        = (PullOutcome.missingDefaultLocale :: (runPull []).1, (runPull []).2) :=
  C6_missing_default_locale ⟨[("fr", [("x", "X")])], [("a", "A")], "en", true⟩ []
    (by decide)

/-- C7 counterexample: the pull write path and the remove-unused write path
write unconditionally — even on input whose serialization is byte-identical
to what is on disk, the write is not skipped (neither path ever consults the
existing content). -/
theorem C7_counterexample :
    pullLocaleWrite [("a", "b")] = some (serializeLocale [("a", "b")])
    ∧ onlyKeepKeysInJson [("a", "b")] ["a"] = some (serializeLocale [("a", "b")])
    ∧ pullLocaleWrite [("a", "b")] ≠ none
    ∧ onlyKeepKeysInJson [("a", "b")] ["a"] ≠ none := by decide

/-- C7 (amended): every write site serializes with 2-space indentation and one
trailing newline; the byte-identical skip exists only at the cleanup write
site — there the write is skipped exactly when the serialized cleaned object
equals the existing raw content — while the pull and remove-unused writes are
unconditional. -/
theorem C7_write_sites (raw : String) (json : Obj) (K keep : List String) :
    (cleanupLocaleWrite raw json K = none
      ↔ raw = serializeLocale (cleanupJson json K))
    ∧ pullLocaleWrite json = some (serializeLocale json)
    ∧ (onlyKeepKeysInJson json keep).isSome = true
    ∧ (serializeLocale json).data.getLast? = some '\n' := by
  refine ⟨?_, rfl, rfl, ?_⟩
  · unfold cleanupLocaleWrite
    by_cases h : raw = serializeLocale (cleanupJson json K)
    · simp [h]
    · simp [h]
  · show (jsonStringify2 json ++ "\n").data.getLast? = some '\n'
    rw [show (jsonStringify2 json ++ "\n").data
      = (jsonStringify2 json).data ++ ['\n'] from rfl]
    exact List.getLast?_concat _

theorem C7_witness :
    cleanupLocaleWrite (serializeLocale (cleanupJson [("a", " b ")] ["a"]))
      [("a", " b ")] ["a"] = none :=
  (C7_write_sites (serializeLocale (cleanupJson [("a", " b ")] ["a"]))
    [("a", " b ")] ["a"] ["a"]).1.mpr rfl

/-- C8 counterexample: in a two-project pull whose first project has a lint
failure, the process exits with status 1 immediately — only one outcome is
produced and the second project is never processed, contradicting "the
remaining projects are still processed and reported first". -/
theorem C8_counterexample :
    runPull [⟨[("en", [("a", "A")])], [("a", "A")], "en", false⟩,
        ⟨[("en", [("a", "A")])], [("a", "A")], "en", true⟩]
      = ([PullOutcome.pulled [("en", [("a", "A")])] false], true)
    ∧ ([PullOutcome.pulled [("en", [("a", "A")])] false] : List PullOutcome).length
        ≠ 2 := by decide

/-- C8 (amended): pull, push and lint all exit with status 1 when a syntax
validation error is found, and earlier writes are not rolled back; but only
the lint command finishes reporting every project before exiting — pull and
push exit immediately inside the first project whose lint fails, so the
remaining projects are not processed. -/
theorem C8_exit_behaviour :
    (∀ oks : List Bool, (runLintCommand oks).1 = oks
      ∧ ((runLintCommand oks).2 = true ↔ false ∈ oks))
    ∧ (∀ (inp : PullInput) (rest : List PullInput) (b : List (String × Obj)),
        reconcileBundle inp.bundle inp.localRef inp.dl = some b →
        inp.lintOk = false →
        runPull (inp :: rest) = ([PullOutcome.pulled b false], true))
    ∧ (∀ (inp : PushInput) (rest : List PushInput), inp.lintOk = false →
        runPush (inp :: rest) = ([PushOutcome.lintFailed], true)) := by
  refine ⟨?_, ?_, ?_⟩
  · intro oks
    refine ⟨rfl, ?_⟩
    show (!(oks.all fun b => b)) = true ↔ false ∈ oks
    rw [Bool.not_eq_true']
    exact all_id_eq_false_iff oks
  · intro inp rest b hrec hlint
    have h1 : pullProjectModel inp = PullOutcome.pulled b false := by
      unfold pullProjectModel
      rw [hrec, hlint]
    simp [runPull, h1, pullExits]
  · intro inp rest hlint
    have h1 : pushProjectModel inp = PushOutcome.lintFailed := by
      unfold pushProjectModel
      rw [hlint]
      simp
    simp [runPush, h1, pushExits]

theorem C8_witness :
    runPull [⟨[("en", [])], [], "en", false⟩, ⟨[("en", [])], [], "en", true⟩]
      = ([PullOutcome.pulled [("en", [])] false], true) :=
  C8_exit_behaviour.2.1 ⟨[("en", [])], [], "en", false⟩
    [⟨[("en", [])], [], "en", true⟩] [("en", [])] (by decide) rfl

/-- C9: a reference key is classified as used by the scanner (kept) exactly
when the concatenated source text contains it wrapped in double quotes,
backticks or single quotes, or contains a backtick followed by one of its two
dot-suffix variants (all segments but the last, or all but the last two,
joined with a trailing interpolation opener). -/
theorem C9_scanner_classification (code : String) (refKeys : List String)
    (k : String) (hk : k ∈ refKeys) :
    k ∈ scanKeptKeys code refKeys ↔ specKeyUsed code k := by
  rw [← isUnusedKey_eq_false_iff]
  unfold scanKeptKeys scanUnusedKeys
  simp only [List.mem_filter, hk, true_and, Bool.not_eq_true',
    list_contains_eq_false_iff, Bool.not_eq_true]

theorem C9_witness :
    ("home.title" ∈ scanKeptKeys "t(\"home.title\")" ["home.title", "home.count"]
      ↔ specKeyUsed "t(\"home.title\")" "home.title") :=
  C9_scanner_classification "t(\"home.title\")" ["home.title", "home.count"]
    "home.title" (by decide)

/-- C10: for a key with at most two dot-delimited segments, the second suffix
variant degenerates to the bare interpolation opener (for a single-segment
key both variants do); consequently, whenever the source contains a backtick
immediately followed by that opener anywhere at all, every such key is
classified as used, regardless of the key's actual name. -/
theorem C10_degenerate_variants (code key : String) :
    ((splitDot key).length ≤ 2 → variantKey2 key = ".$\x7b")
    ∧ ((splitDot key).length = 1 →
        variantKey1 key = ".$\x7b" ∧ variantKey2 key = ".$\x7b")
    ∧ ((splitDot key).length ≤ 2 → strIncludes code "\x60.$\x7b" = true →
        isUnusedKey code key = false) := by
  refine ⟨fun h => variantKey2_degenerate h,
    fun h => ⟨variantKey1_degenerate h, variantKey2_degenerate (by omega)⟩, ?_⟩
  intro h hinc
  unfold isUnusedKey
  rw [variantKey2_degenerate h,
    show ("\x60" ++ ".$\x7b" : String) = "\x60.$\x7b" from rfl, hinc]
  simp

theorem C10_witness :
    isUnusedKey "x \x60.$\x7bfield\x7d\x60 y" "a.b" = false :=
  (C10_degenerate_variants "x \x60.$\x7bfield\x7d\x60 y" "a.b").2.2
    (by decide) (by decide)

end Lokalise
